import Mathlib

/-!
Verification of the Attendify backend (backend/app.py): the consent-gated
biometric embedding pipeline.  The Python source is shallowly embedded:

* Python floats are modelled as exact rationals (ℚ); `math.sqrt`, whose values
  are irrational, is passed around as an explicit function parameter
  `fsqrt : ℚ → ℚ`, so every theorem quantifies over the interpretation of the
  square root and in particular holds for the real one.  Sums mirror Python's
  left-to-right `sum(...)` via `List.foldl`.
* Fernet authenticated encryption is modelled symbolically: a ciphertext
  remembers the key it was produced under, and decryption succeeds exactly
  when the same key is supplied (a wrong key or tampered blob fails the HMAC
  check in the real library; the model makes that failure certain).
  `Fernet.generate_key()` draws fresh random key material on each call; the
  model threads an explicit draw counter, distinct draws giving distinct keys.
* Database rows (`User`, `Student`, `Class`, `Attendance`) are Lean
  structures; the SQLAlchemy queries used by the endpoints are embedded as
  list scans that mirror `filter_by(...).first()` / `.all()`.
* `json.dumps` / `json.loads` of an embedding vector are embedded as an exact
  decimal printer and recursive-descent parser over `List Char` for the
  fragment of JSON the code emits (arrays of finite floats, i.e. dyadic
  rationals, with the default ", " separator).
* `_generate_embedding` is embedded in full: base64 decoding, SHA-256,
  CPython's Mersenne-Twister seeding (`init_by_array`) and `random()` draws
  (exact rationals of the form m / 2^53), and L2 normalisation through
  `fsqrt`.  The `except` fallback to `os.urandom(256)` is modelled by an
  explicit `fallback` byte-list parameter.
-/

namespace Attendify

/-! ## Generic numeric helpers -/

/-- Floor square root by linear scan; used only to instantiate `fsqrt` in
concrete witnesses, where every radicand is a perfect square and the value
agrees with the real square root. -/
def natSqrtLin (n : Nat) : Nat :=
  (List.range (n + 1)).foldl (fun a k => if k * k ≤ n then k else a) 0

/-- Rational square root for witnesses (exact on perfect squares). -/
def sqrtQLin (q : ℚ) : ℚ := (natSqrtLin q.num.toNat : ℚ) / (natSqrtLin q.den : ℚ)

/-! ## Decimal digits -/

def digitChar (d : Nat) : Char := Char.ofNat (48 + d)

def charDigit (c : Char) : Nat := c.toNat - 48

/-- Little-endian decimal digits of `n`, with explicit fuel (call with
`fuel = n`) so that the recursion is structural and kernel-reducible. -/
def natDigitsRevAux : Nat → Nat → List Nat
  | 0, _ => []
  | _ + 1, 0 => []
  | fuel + 1, n + 1 => ((n + 1) % 10) :: natDigitsRevAux fuel ((n + 1) / 10)

def natDigitsRev (n : Nat) : List Nat := natDigitsRevAux n n

/-- Big-endian decimal digit characters of `n` (`"0"` for zero). -/
def natDigitsChars (n : Nat) : List Char :=
  if n = 0 then ['0'] else ((natDigitsRev n).map digitChar).reverse

/-- Value of a big-endian digit-character run. -/
def digitsVal (cs : List Char) : Nat := cs.foldl (fun a c => 10 * a + charDigit c) 0

/-- Exactly `k` fractional digit characters for `f < 10^k` (left-padded with
zeros). -/
def fracChars (f k : Nat) : List Char :=
  ((natDigitsRev f ++ List.replicate (k - (natDigitsRev f).length) 0).map digitChar).reverse

/-- Fueled power-of-two exponent: `pow2Exp (2^k) = k`.  Structural stand-in
for `Nat.log2` on the powers of two that occur as denominators of finite
binary floating-point values. -/
def pow2ExpAux : Nat → Nat → Nat
  | 0, _ => 0
  | f + 1, n => if n ≤ 1 then 0 else pow2ExpAux f (n / 2) + 1

def pow2Exp (n : Nat) : Nat := pow2ExpAux n n

/-! ## JSON text serialisation of float vectors

`json.dumps(vec)` writes each float in exact shortest decimal (Python float
`repr` round-trips IEEE-754 doubles exactly); every finite double is a dyadic
rational `m / 2^k`, whose exact decimal expansion is finite.  The printer
below writes that exact expansion, and the parser reads the number grammar
fragment the printer emits, inside a `[a, b, ...]` array with Python's
default ", " separator. -/

/-- A finite binary floating-point value: a rational with a power-of-two
denominator. -/
def IsDyadic (q : ℚ) : Prop := ∃ k : ℕ, q.den = 2 ^ k

/-- Exact decimal text of a dyadic rational. -/
def printFloat (q : ℚ) : List Char :=
  let k := pow2Exp q.den
  let N := q.num.natAbs * 5 ^ k
  let body :=
    if k = 0 then natDigitsChars N
    else natDigitsChars (N / 10 ^ k) ++ '.' :: fracChars (N % 10 ^ k) k
  if q.num < 0 then '-' :: body else body

def sepFloats : List ℚ → List Char
  | [] => []
  | [q] => printFloat q
  | q :: rest => printFloat q ++ ',' :: ' ' :: sepFloats rest

/-- The `json.dumps` text of a float vector. -/
def json_dumps (v : List ℚ) : List Char := '[' :: (sepFloats v ++ [']'])

/-- Split a maximal leading digit run from the rest (`takeWhile`/`dropWhile`
of `Char.isDigit` in one pass). -/
def spanDigits : List Char → List Char × List Char
  | [] => ([], [])
  | c :: cs =>
    if c.isDigit then
      let r := spanDigits cs
      (c :: r.1, r.2)
    else ([], c :: cs)

/-- Parse an unsigned decimal number (integer or with one '.'), maximal-munch
on digits; returns the value and the unconsumed rest. -/
def parseNumberPos (cs : List Char) : Option (ℚ × List Char) :=
  match spanDigits cs with
  | ([], _) => none
  | (d :: ds, tail) =>
    match tail with
    | [] => some ((digitsVal (d :: ds) : ℚ), [])
    | c :: rest2 =>
      if c = '.' then
        match spanDigits rest2 with
        | ([], _) => none
        | (f :: fs, tail2) =>
          some ((digitsVal (d :: ds) : ℚ) + (digitsVal (f :: fs) : ℚ) / (10 : ℚ) ^ (f :: fs).length,
                tail2)
      else some ((digitsVal (d :: ds) : ℚ), c :: rest2)

/-- Parse an optionally negated decimal number. -/
def parseNumber (cs : List Char) : Option (ℚ × List Char) :=
  match cs with
  | [] => none
  | c :: rest =>
    if c = '-' then (parseNumberPos rest).map (fun p => (-p.1, p.2))
    else parseNumberPos (c :: rest)

/-- Parse `num (", " num)* "]"`, fueled by the input length. -/
def parseItems : Nat → List Char → Option (List ℚ × List Char)
  | 0, _ => none
  | fuel + 1, cs =>
    match parseNumber cs with
    | none => none
    | some (q, rest) =>
      match rest with
      | [] => none
      | c :: rest2 =>
        if c = ']' then some ([q], rest2)
        else if c = ',' then
          match rest2 with
          | [] => none
          | c2 :: rest3 =>
            if c2 = ' ' then (parseItems fuel rest3).map (fun p => (q :: p.1, p.2))
            else none
        else none

/-- Parse of a float-vector text: `json.loads` on the array fragment of JSON. -/
def json_loads_vec (cs : List Char) : Option (List ℚ) :=
  match cs with
  | [] => none
  | c :: rest =>
    if c = '[' then
      match rest with
      | [] => none
      | d :: rest2 =>
        if d = ']' then (if rest2.isEmpty then some [] else none)
        else
          match parseItems cs.length rest with
          | some (v, []) => some v
          | _ => none
    else none

/-! ## Fernet model and `_get_fernet` -/

/-- A Fernet key: either the operator-supplied `ATTENDIFY_FERNET_KEY`, or key
material produced by the `draw`-th call to `Fernet.generate_key()` in this
process.  Distinct CSPRNG draws give distinct keys (constructor injectivity
models the collision-freeness of independent 256-bit draws). -/
inductive FKey
  | operator (key : String)
  | generated (draw : Nat)
deriving DecidableEq

/-- Model of `_get_fernet`: the operator key when `ATTENDIFY_FERNET_KEY` is
set, otherwise `Fernet(Fernet.generate_key())` — a fresh draw at each call. -/
def get_fernet (env : Option String) (draw : Nat) : FKey :=
  match env with
  | some k => .operator k
  | none => .generated draw

/-- Symbolic Fernet token: remembers the encrypting key and the plaintext. -/
structure Ciphertext where
  key : FKey
  payload : List Char
deriving DecidableEq

def fernetEncrypt (k : FKey) (p : List Char) : Ciphertext := ⟨k, p⟩

/-- Decryption succeeds exactly under the encrypting key (wrong key fails the
HMAC check and raises `InvalidToken`, modelled as `none`). -/
def fernetDecrypt (k : FKey) (c : Ciphertext) : Option (List Char) :=
  if c.key = k then some c.payload else none

/-- Model of `_vector_to_bytes(vec, fernet)`: `fernet.encrypt(json.dumps(vec))`. -/
def vector_to_bytes (v : List ℚ) (fernet : FKey) : Ciphertext :=
  fernetEncrypt fernet (json_dumps v)

/-- Model of `_bytes_to_vector(enc, fernet)`: `json.loads(fernet.decrypt(enc))`;
its `none` models the `InvalidToken` / JSON decode exceptions. -/
def bytes_to_vector (enc : Ciphertext) (fernet : FKey) : Option (List ℚ) :=
  (fernetDecrypt fernet enc).bind json_loads_vec

/-! ## Data model (backend/models.py rows as seen by the endpoints) -/

structure UserRec where
  uid : Nat
  username : String
  password_hash : String
  role : String
  consent_given : Bool
deriving DecidableEq

structure StudentRec where
  sid : Nat
  user : Option UserRec
  name : String
  registration_number : String
  course : String
  year : Int
  semester : Int
  facial_embedding : Option Ciphertext
deriving DecidableEq

structure ClassRec where
  cid : Nat
  course_id : Nat
  day_of_week : String
  start_time : ℚ
  end_time : ℚ
  lecturer_id : Nat
deriving DecidableEq

structure AttendanceRec where
  student_id : Nat
  class_id : Nat
  timestamp : ℚ
  status : String
deriving DecidableEq

structure AppState where
  users : List UserRec
  students : List StudentRec
  attendance : List AttendanceRec
deriving DecidableEq

/-! ## Pure helpers of app.py -/

/-- Model of `_encrypt_embedding_if_consented`: raises `ValueError` unless
`user.consent_given`. -/
def encrypt_embedding_if_consented (user : UserRec) (raw : List Char)
    (fernet : FKey) : Except String Ciphertext :=
  if ¬ user.consent_given then
    Except.error ("Consent not given; biometric processing is prohibited.")
  else Except.ok (fernetEncrypt fernet raw)

/-- Model of `_cosine_similarity(a, b)`, with Python's truncating `zip` and
the zero-norm guard. -/
def cosine_similarity (fsqrt : ℚ → ℚ) (a b : List ℚ) : ℚ :=
  let dot := (List.zip a b).foldl (fun acc p => acc + p.1 * p.2) 0
  let na := fsqrt (a.foldl (fun acc x => acc + x * x) 0)
  let nb := fsqrt (b.foldl (fun acc x => acc + x * x) 0)
  if na = 0 ∨ nb = 0 then 0 else dot / (na * nb)

/-- Model of `_find_current_class()`: first class row with matching day whose
`[start_time, end_time]` window contains `now` — both endpoints inclusive
(`start_time <= now` and `end_time >= now`). -/
def find_current_class : List ClassRec → String → ℚ → Option ClassRec
  | [], _, _ => none
  | c :: rest, day, now =>
    if c.day_of_week = day ∧ c.start_time ≤ now ∧ now ≤ c.end_time then some c
    else find_current_class rest day now

/-! ## `/api/recognize` -/

/-- One iteration of the candidate loop in `api_recognize`: skip when the
joined user row is missing, consent is absent, or no embedding is stored;
decrypt+parse inside `try` (failure skips); update the running best on a
strictly greater score. -/
def scanStep (fsqrt : ℚ → ℚ) (fernet : FKey) (probe : List ℚ)
    (acc : Option StudentRec × ℚ) (s : StudentRec) : Option StudentRec × ℚ :=
  match s.user with
  | none => acc
  | some u =>
    if u.consent_given then
      match s.facial_embedding with
      | none => acc
      | some enc =>
        match bytes_to_vector enc fernet with
        | none => acc
        | some vec =>
          let score := cosine_similarity fsqrt probe vec
          if acc.2 < score then (some s, score) else acc
    else acc

/-- The whole loop `for s in Student.query.all(): ...` with
`best, best_score = None, 0.0`. -/
def scanStudents (fsqrt : ℚ → ℚ) (fernet : FKey) (probe : List ℚ)
    (students : List StudentRec) : Option StudentRec × ℚ :=
  students.foldl (scanStep fsqrt fernet probe) (none, 0)

/-- The decrypted vector of a candidate when it passes every gate
(user present, consent, stored embedding, successful decrypt+parse);
`none` exactly when the loop skips the candidate. -/
def candidateVec (fernet : FKey) (s : StudentRec) : Option (List ℚ) :=
  match s.user with
  | none => none
  | some u =>
    if u.consent_given then
      match s.facial_embedding with
      | none => none
      | some enc => bytes_to_vector enc fernet
    else none

/-- The similarity scores of the candidates that are not skipped, in
iteration order. -/
def validSims (fsqrt : ℚ → ℚ) (fernet : FKey) (probe : List ℚ)
    (students : List StudentRec) : List ℚ :=
  students.filterMap (fun s => (candidateVec fernet s).map (cosine_similarity fsqrt probe))

/-- Result of `/api/recognize` after the probe embedding is computed. -/
inductive RecOutcome
  | noMatch (score : ℚ)
  | matchedNoClass (best : StudentRec) (score : ℚ)
  | matchedLogged (best : StudentRec) (score : ℚ) (current : ClassRec)
deriving DecidableEq

def RecOutcome.isMatched : RecOutcome → Bool
  | .noMatch _ => false
  | .matchedNoClass _ _ => true
  | .matchedLogged _ _ _ => true

/-- The `/api/recognize` handler from the point the probe vector exists: the
scan, the `best_score < 0.8` threshold test, the schedule lookup, and the
attendance append.  Returns the response outcome and the new attendance
table. -/
def api_recognize_core (fsqrt : ℚ → ℚ) (fernet : FKey) (probe : List ℚ)
    (students : List StudentRec) (day : String) (now : ℚ)
    (classes : List ClassRec) (atts : List AttendanceRec) :
    RecOutcome × List AttendanceRec :=
  match scanStudents fsqrt fernet probe students with
  | (none, best_score) => (.noMatch best_score, atts)
  | (some best, best_score) =>
    if best_score < 4 / 5 then (.noMatch best_score, atts)
    else
      match find_current_class classes day now with
      | none => (.matchedNoClass best best_score, atts)
      | some current =>
        (.matchedLogged best best_score current,
         atts ++ [{ student_id := best.sid, class_id := current.cid,
                    timestamp := now, status := "present" }])

/-! ## `/api/enroll` -/

structure EnrollRequest where
  name : Option String
  reg_no : Option String
  course : Option String
  year : Int
  semester : Int
  facial_image_base64 : Option String
  consent : Bool
  username : Option String
  password : Option String
deriving DecidableEq

inductive EnrollOutcome
  | missing_fields
  | consent_required
  | user_exists
  | student_exists
  | enrolled (student_id : Nat)
deriving DecidableEq

/-- Python truthiness of an optional string field (`None` and `""` are
falsy). -/
def truthyStr : Option String → Bool
  | none => false
  | some s => if s = "" then false else true

/-- Model of `User.query.filter_by(username=un).first()`. -/
def firstUserNamed : List UserRec → String → Option UserRec
  | [], _ => none
  | u :: rest, un => if u.username = un then some u else firstUserNamed rest un

/-- Model of `Student.query.filter_by(registration_number=r).first()`. -/
def firstStudentReg : List StudentRec → String → Option StudentRec
  | [], _ => none
  | s :: rest, r => if s.registration_number = r then some s else firstStudentReg rest r

/-- The `/api/enroll` handler.  `gen` stands for `_generate_embedding` (a fixed function
of the image text — see `generate_embedding_deterministic`); `env`/`draw`
feed `_get_fernet` as above. -/
def api_enroll (gen : String → List ℚ) (env : Option String) (draw : Nat)
    (st : AppState) (req : EnrollRequest) : EnrollOutcome × AppState :=
  let username := if truthyStr req.username then req.username.getD ("") else req.reg_no.getD ("")
  let password := if truthyStr req.password then req.password.getD ("") else ("changeme")
  if ¬ (truthyStr req.name ∧ truthyStr req.reg_no ∧ truthyStr req.course ∧
        truthyStr req.facial_image_base64) then
    (.missing_fields, st)
  else if ¬ req.consent then (.consent_required, st)
  else if (firstUserNamed st.users username).isSome then (.user_exists, st)
  else if (firstStudentReg st.students (req.reg_no.getD (""))).isSome then (.student_exists, st)
  else
    let fernet := get_fernet env draw
    let vec := gen (req.facial_image_base64.getD (""))
    let enc := vector_to_bytes vec fernet
    let user : UserRec :=
      { uid := st.users.length + 1, username := username,
        password_hash := "pbkdf2:sha256:" ++ password, role := "student",
        consent_given := true }
    let stu : StudentRec :=
      { sid := st.students.length + 1, user := some user,
        name := req.name.getD (""), registration_number := req.reg_no.getD (""),
        course := req.course.getD (""), year := req.year, semester := req.semester,
        facial_embedding := some enc }
    (.enrolled stu.sid,
     { users := st.users ++ [user], students := st.students ++ [stu],
       attendance := st.attendance })

/-! ## `/api/login` -/

inductive LoginResult
  | access_token (uid : Nat) (role : String) (username : String)
  | invalid_credentials
deriving DecidableEq

/-- Python `str.endswith`. -/
def endswith (s sfx : String) : Bool := sfx.data.isSuffixOf s.data

/-- The `/api/login` handler: look the username up, then the demo hash check
`expected.endswith(password)`. -/
def api_login (users : List UserRec) (username password : Option String) : LoginResult :=
  let un := username.getD ("")
  let pw := password.getD ("")
  match firstUserNamed users un with
  | none => .invalid_credentials
  | some u =>
    if endswith u.password_hash pw then .access_token u.uid u.role u.username
    else .invalid_credentials

/-! ## `_generate_embedding`: base64, SHA-256, Mersenne Twister -/

def state0 : AppState := { users := [], students := [], attendance := [] }

/-- A complete enrollment request with consent granted. -/
def reqComplete : EnrollRequest :=
  { name := some ("Alice Kim"), reg_no := some ("EMB-IT-0001"), course := some ("IT"),
    year := 1, semester := 1, facial_image_base64 := some ("dGVzdA=="),
    consent := true, username := none, password := none }

/-- The all-defaults request (`request.get_json()` returned `{}`):
every field absent, consent defaulting to false. -/
def reqEmpty : EnrollRequest :=
  { name := none, reg_no := none, course := none, year := 1, semester := 1,
    facial_image_base64 := none, consent := false, username := none, password := none }

/-- A complete request with consent refused. -/
def reqNoConsent : EnrollRequest :=
  { name := some ("Alice Kim"), reg_no := some ("EMB-IT-0001"), course := some ("IT"),
    year := 1, semester := 1, facial_image_base64 := some ("dGVzdA=="),
    consent := false, username := none, password := none }

def keyOp : FKey := .operator ("k")

def mkUser (uid : Nat) (un : String) : UserRec :=
  { uid := uid, username := un, password_hash := "pbkdf2:sha256:changeme",
    role := "student", consent_given := true }

/-- A consenting student whose stored embedding is `v` encrypted under `k`. -/
def mkStudent (sid : Nat) (v : List ℚ) (k : FKey) : StudentRec :=
  { sid := sid, user := some (mkUser sid ("u")), name := "S", registration_number := "R",
    course := "IT", year := 1, semester := 1, facial_embedding := some (vector_to_bytes v k) }

/-- A consenting student whose stored bytes were encrypted under a different
key, so decryption raises (`InvalidToken`) during the scan. -/
def badStudent : StudentRec :=
  { sid := 99, user := some (mkUser 99 ("bad")), name := "B", registration_number := "RB",
    course := "IT", year := 1, semester := 1,
    facial_embedding := some (vector_to_bytes [1] (FKey.generated 0)) }

/-! ## Decimal digit lemmas -/

theorem charDigit_digitChar : ∀ d : Nat, d < 10 → charDigit (digitChar d) = d := by decide

theorem isDigit_digitChar : ∀ d : Nat, d < 10 → (digitChar d).isDigit = true := by decide

theorem natDigitsRevAux_lt10 : ∀ fuel n d, d ∈ natDigitsRevAux fuel n → d < 10 := by
  intro fuel
  induction fuel with
  | zero => intro n d h; simp [natDigitsRevAux] at h
  | succ f ih =>
    intro n d h
    cases n with
    | zero => simp [natDigitsRevAux] at h
    | succ m =>
      simp only [natDigitsRevAux, List.mem_cons] at h
      rcases h with h | h
      · subst h; exact Nat.mod_lt _ (by norm_num)
      · exact ih _ _ h

theorem ofDigits_natDigitsRevAux :
    ∀ fuel n, n ≤ fuel → Nat.ofDigits 10 (natDigitsRevAux fuel n) = n := by
  intro fuel
  induction fuel with
  | zero => intro n h; interval_cases n; simp [natDigitsRevAux, Nat.ofDigits]
  | succ f ih =>
    intro n h
    cases n with
    | zero => simp [natDigitsRevAux, Nat.ofDigits]
    | succ m =>
      have hdiv : (m + 1) / 10 ≤ f := by
        have := Nat.div_lt_self (Nat.succ_pos m) (by norm_num : 1 < 10)
        omega
      simp only [natDigitsRevAux, Nat.ofDigits_cons, ih _ hdiv]
      omega

theorem natDigitsRevAux_length :
    ∀ fuel n k, n ≤ fuel → n < 10 ^ k → (natDigitsRevAux fuel n).length ≤ k := by
  intro fuel
  induction fuel with
  | zero => intro n k h _; interval_cases n; simp [natDigitsRevAux]
  | succ f ih =>
    intro n k h hk
    cases n with
    | zero => simp [natDigitsRevAux]
    | succ m =>
      cases k with
      | zero => simp at hk
      | succ s =>
        have hdiv : (m + 1) / 10 ≤ f := by
          have := Nat.div_lt_self (Nat.succ_pos m) (by norm_num : 1 < 10)
          omega
        have hlt : (m + 1) / 10 < 10 ^ s := by
          have hm : m + 1 < 10 * 10 ^ s := by
            rw [← pow_succ']; exact hk
          exact Nat.div_lt_of_lt_mul hm
        simp only [natDigitsRevAux, List.length_cons]
        have := ih _ s hdiv hlt
        omega

theorem digitsVal_rev_map (L : List Nat) (h : ∀ d ∈ L, d < 10) :
    digitsVal ((L.map digitChar).reverse) = Nat.ofDigits 10 L := by
  unfold digitsVal
  rw [List.foldl_reverse]
  induction L with
  | nil => simp [Nat.ofDigits]
  | cons d rest ih =>
    simp only [List.map_cons, List.foldr_cons, Nat.ofDigits_cons]
    rw [ih (fun x hx => h x (List.mem_cons_of_mem _ hx))]
    rw [charDigit_digitChar d (h d (List.mem_cons_self _ _))]
    ring

theorem natDigitsChars_ne_nil (n : Nat) : natDigitsChars n ≠ [] := by
  unfold natDigitsChars
  split
  · simp
  · rename_i h
    cases n with
    | zero => exact absurd rfl h
    | succ m =>
      simp only [natDigitsRev, natDigitsRevAux, List.map_cons, List.reverse_cons]
      intro hc
      exact List.append_ne_nil_of_right_ne_nil _ (by simp) hc

theorem natDigitsChars_isDigit (n : Nat) : ∀ c ∈ natDigitsChars n, c.isDigit = true := by
  intro c hc
  unfold natDigitsChars at hc
  split at hc
  · simp at hc; subst hc; decide
  · simp only [List.mem_reverse, List.mem_map] at hc
    obtain ⟨d, hd, rfl⟩ := hc
    exact isDigit_digitChar d (natDigitsRevAux_lt10 _ _ _ hd)

theorem digitsVal_natDigitsChars (n : Nat) : digitsVal (natDigitsChars n) = n := by
  unfold natDigitsChars
  split
  · rename_i h; subst h; decide
  · rw [digitsVal_rev_map]
    · exact ofDigits_natDigitsRevAux n n le_rfl
    · intro d hd
      exact natDigitsRevAux_lt10 _ _ _ hd

theorem ofDigits_append_zeros (j : Nat) (L : List Nat) :
    Nat.ofDigits 10 (L ++ List.replicate j 0) = Nat.ofDigits 10 L := by
  rw [Nat.ofDigits_append]
  have : Nat.ofDigits 10 (List.replicate j (0 : ℕ)) = 0 := by
    induction j with
    | zero => simp [Nat.ofDigits]
    | succ i ih => simp [List.replicate, Nat.ofDigits_cons, ih]
  simp [this]

theorem fracChars_length (f k : Nat) (h : f < 10 ^ k) : (fracChars f k).length = k := by
  have hle : (natDigitsRev f).length ≤ k := natDigitsRevAux_length f f k le_rfl h
  unfold fracChars
  simp [List.length_append, List.length_replicate]
  omega

theorem fracChars_isDigit (f k : Nat) : ∀ c ∈ fracChars f k, c.isDigit = true := by
  intro c hc
  unfold fracChars at hc
  simp only [List.mem_reverse, List.mem_map] at hc
  obtain ⟨d, hd, rfl⟩ := hc
  rcases List.mem_append.mp hd with hd | hd
  · exact isDigit_digitChar d (natDigitsRevAux_lt10 _ _ _ hd)
  · have := List.eq_of_mem_replicate hd
    subst this; decide

theorem digitsVal_fracChars (f k : Nat) : digitsVal (fracChars f k) = f := by
  unfold fracChars
  rw [digitsVal_rev_map]
  · rw [ofDigits_append_zeros]
    exact ofDigits_natDigitsRevAux f f le_rfl
  · intro d hd
    rcases List.mem_append.mp hd with hd | hd
    · exact natDigitsRevAux_lt10 _ _ _ hd
    · have := List.eq_of_mem_replicate hd
      subst this; norm_num

theorem pow2ExpAux_pow : ∀ fuel k, 2 ^ k ≤ fuel → pow2ExpAux fuel (2 ^ k) = k := by
  intro fuel
  induction fuel with
  | zero =>
    intro k h
    have h2 : 0 < 2 ^ k := pow_pos (by norm_num) k
    omega
  | succ f ih =>
    intro k h
    cases k with
    | zero => simp [pow2ExpAux]
    | succ s =>
      have h2 : ¬ 2 ^ (s + 1) ≤ 1 := by
        have : (2 : ℕ) ≤ 2 ^ (s + 1) := Nat.one_lt_two_pow_iff.mpr (by omega)
        omega
      have hdiv : 2 ^ (s + 1) / 2 = 2 ^ s := by
        rw [pow_succ, Nat.mul_div_cancel _ (by norm_num)]
      have hle : 2 ^ s ≤ f := by
        have : 2 ^ s < 2 ^ (s + 1) := Nat.pow_lt_pow_right (by norm_num) (by omega)
        omega
      simp only [pow2ExpAux, if_neg h2, hdiv, ih s hle]

theorem pow2Exp_pow (k : Nat) : pow2Exp (2 ^ k) = k :=
  pow2ExpAux_pow (2 ^ k) k le_rfl

/-! ## spanDigits across a printed token -/

theorem spanDigits_append (l r : List Char)
    (hl : ∀ c ∈ l, c.isDigit = true) (hr : ∀ c r', r = c :: r' → c.isDigit = false) :
    spanDigits (l ++ r) = (l, r) := by
  induction l with
  | nil =>
    cases r with
    | nil => rfl
    | cons c r' => simp [spanDigits, hr c r' rfl]
  | cons a l ih =>
    have ha := hl a (List.mem_cons_self _ _)
    simp only [List.cons_append, spanDigits, ha, if_true, List.append_eq]
    rw [ih (fun c hc => hl c (List.mem_cons_of_mem _ hc))]

/-! ## Printer/parser round trip for one number -/

theorem parseNumberPos_print (k N : Nat) (rest : List Char)
    (hrest : ∀ c r', rest = c :: r' → c.isDigit = false ∧ c ≠ '.') :
    parseNumberPos ((if k = 0 then natDigitsChars N
                     else natDigitsChars (N / 10 ^ k) ++ '.' :: fracChars (N % 10 ^ k) k) ++ rest)
      = some ((N : ℚ) / 10 ^ k, rest) := by
  rcases Nat.eq_zero_or_pos k with hk0 | hkpos
  · subst hk0
    obtain ⟨d0, ds0, hds⟩ := List.exists_cons_of_ne_nil (natDigitsChars_ne_nil N)
    have hspan : spanDigits (natDigitsChars N ++ rest) = (d0 :: ds0, rest) := by
      rw [← hds]
      exact spanDigits_append _ _ (natDigitsChars_isDigit N) (fun c r' h => (hrest c r' h).1)
    rw [if_pos rfl]
    unfold parseNumberPos
    rw [hspan]
    have hval : digitsVal (d0 :: ds0) = N := by rw [← hds]; exact digitsVal_natDigitsChars N
    cases rest with
    | nil => simp [hval]
    | cons c r2 =>
      have hc := hrest c r2 rfl
      simp [hc.2, hval]
  · have hkne : k ≠ 0 := Nat.pos_iff_ne_zero.mp hkpos
    have hmod : N % 10 ^ k < 10 ^ k := Nat.mod_lt _ (by positivity)
    have hfraclen : (fracChars (N % 10 ^ k) k).length = k := fracChars_length _ _ hmod
    have hfne : fracChars (N % 10 ^ k) k ≠ [] := by
      intro h
      rw [h] at hfraclen
      simp at hfraclen
      omega
    obtain ⟨d0, ds0, hds⟩ := List.exists_cons_of_ne_nil (natDigitsChars_ne_nil (N / 10 ^ k))
    obtain ⟨f0, fs0, hfs⟩ := List.exists_cons_of_ne_nil hfne
    have hshape :
        (natDigitsChars (N / 10 ^ k) ++ '.' :: fracChars (N % 10 ^ k) k) ++ rest
          = natDigitsChars (N / 10 ^ k) ++ ('.' :: (fracChars (N % 10 ^ k) k ++ rest)) := by
      simp
    have hspan1 : spanDigits (natDigitsChars (N / 10 ^ k) ++
        ('.' :: (fracChars (N % 10 ^ k) k ++ rest))) =
        (d0 :: ds0, '.' :: (fracChars (N % 10 ^ k) k ++ rest)) := by
      rw [← hds]
      exact spanDigits_append _ _ (natDigitsChars_isDigit _)
        (fun c r' h => by injection h with h1 _; subst h1; decide)
    have hspan2 : spanDigits (fracChars (N % 10 ^ k) k ++ rest) = (f0 :: fs0, rest) := by
      rw [← hfs]
      exact spanDigits_append _ _ (fracChars_isDigit _ _) (fun c r' h => (hrest c r' h).1)
    have hvi : digitsVal (d0 :: ds0) = N / 10 ^ k := by
      rw [← hds]; exact digitsVal_natDigitsChars _
    have hvf : digitsVal (f0 :: fs0) = N % 10 ^ k := by
      rw [← hfs]; exact digitsVal_fracChars _ _
    have hlf : (f0 :: fs0).length = k := by rw [← hfs]; exact hfraclen
    rw [if_neg hkne, hshape]
    unfold parseNumberPos
    rw [hspan1]
    simp only [if_pos rfl, hspan2, hvi, hvf, hlf]
    have h10 : ((10 : ℚ)) ^ k ≠ 0 := by positivity
    have hnm : N / 10 ^ k * 10 ^ k + N % 10 ^ k = N := by
      rw [Nat.mul_comm]
      exact Nat.div_add_mod N (10 ^ k)
    field_simp
    exact_mod_cast hnm

theorem printFloat_body_head (k N : Nat) :
    ∃ c cs, (if k = 0 then natDigitsChars N
             else natDigitsChars (N / 10 ^ k) ++ '.' :: fracChars (N % 10 ^ k) k) = c :: cs ∧
      c.isDigit = true := by
  rcases Nat.eq_zero_or_pos k with hk0 | hkpos
  · subst hk0
    obtain ⟨c0, cs0, hcons⟩ := List.exists_cons_of_ne_nil (natDigitsChars_ne_nil N)
    refine ⟨c0, cs0, by simp [hcons], ?_⟩
    exact natDigitsChars_isDigit N c0 (by rw [hcons]; exact List.mem_cons_self _ _)
  · obtain ⟨c0, cs0, hcons⟩ := List.exists_cons_of_ne_nil (natDigitsChars_ne_nil (N / 10 ^ k))
    refine ⟨c0, cs0 ++ '.' :: fracChars (N % 10 ^ k) k, ?_, ?_⟩
    · rw [if_neg (Nat.pos_iff_ne_zero.mp hkpos), hcons]; simp
    · exact natDigitsChars_isDigit _ c0 (by rw [hcons]; exact List.mem_cons_self _ _)

theorem dyadic_val (q : ℚ) (k : Nat) (hden : q.den = 2 ^ k) :
    ((q.num.natAbs * 5 ^ k : ℕ) : ℚ) / 10 ^ k = (q.num.natAbs : ℚ) / (q.den : ℚ) := by
  rw [hden]
  have h10 : ((10 : ℚ)) ^ k = 2 ^ k * 5 ^ k := by
    rw [← mul_pow]; norm_num
  push_cast
  rw [h10]
  have h2 : ((2 : ℚ)) ^ k ≠ 0 := by positivity
  have h5 : ((5 : ℚ)) ^ k ≠ 0 := by positivity
  field_simp
  ring

theorem parseNumber_print (q : ℚ) (hq : IsDyadic q) (rest : List Char)
    (hrest : ∀ c r', rest = c :: r' → c.isDigit = false ∧ c ≠ '.') :
    parseNumber (printFloat q ++ rest) = some (q, rest) := by
  obtain ⟨k, hden⟩ := hq
  have hk : pow2Exp q.den = k := by rw [hden]; exact pow2Exp_pow k
  have hbody : printFloat q =
      (if q.num < 0 then ['-'] else []) ++
        (if k = 0 then natDigitsChars (q.num.natAbs * 5 ^ k)
         else natDigitsChars ((q.num.natAbs * 5 ^ k) / 10 ^ k) ++
           '.' :: fracChars ((q.num.natAbs * 5 ^ k) % 10 ^ k) k) := by
    unfold printFloat
    rw [hk]
    split <;> simp
  have hpos := parseNumberPos_print k (q.num.natAbs * 5 ^ k) rest hrest
  have habs : ((q.num.natAbs * 5 ^ k : ℕ) : ℚ) / 10 ^ k = (q.num.natAbs : ℚ) / (q.den : ℚ) :=
    dyadic_val q k hden
  obtain ⟨c0, cs0, hcons, hdig⟩ := printFloat_body_head k (q.num.natAbs * 5 ^ k)
  have hred : ∀ x, parseNumber ('-' :: x) = (parseNumberPos x).map (fun p => (-p.1, p.2)) := by
    intro x
    simp [parseNumber]
  rcases lt_or_le q.num 0 with hneg | hnn
  · rw [hbody, if_pos hneg]
    simp only [List.singleton_append, List.cons_append, List.nil_append]
    rw [hred, hpos, habs]
    simp only [Option.map_some']
    have h1 : ((q.num.natAbs : ℕ) : ℚ) = -(q.num : ℚ) := by
      rw [Int.cast_natAbs]
      have h2 : |q.num| = -q.num := abs_of_nonpos (le_of_lt hneg)
      exact_mod_cast h2
    rw [h1, neg_div, neg_neg, Rat.num_div_den]
  · rw [hbody, if_neg (not_lt.mpr hnn)]
    rw [List.nil_append, hcons, List.cons_append]
    have hcne : c0 ≠ '-' := by
      intro h
      rw [h] at hdig
      exact absurd hdig (by decide)
    have hred2 : parseNumber (c0 :: (cs0 ++ rest)) = parseNumberPos (c0 :: (cs0 ++ rest)) := by
      simp [parseNumber, hcne]
    rw [hred2, ← List.cons_append, ← hcons, hpos, habs]
    have h1 : ((q.num.natAbs : ℕ) : ℚ) = (q.num : ℚ) := by
      rw [Int.cast_natAbs]
      have h2 : |q.num| = q.num := abs_of_nonneg hnn
      exact_mod_cast h2
    rw [h1, Rat.num_div_den]

/-! ## Round trip for a whole serialised vector -/

theorem printFloat_cons (q : ℚ) :
    ∃ c cs, printFloat q = c :: cs ∧ (c.isDigit = true ∨ c = '-') := by
  obtain ⟨c0, cs0, hcons, hdig⟩ :=
    printFloat_body_head (pow2Exp q.den) (q.num.natAbs * 5 ^ pow2Exp q.den)
  simp only [printFloat]
  split
  · exact ⟨'-', _, rfl, Or.inr rfl⟩
  · exact ⟨c0, cs0, hcons, Or.inl hdig⟩

theorem sepFloats_length : ∀ v : List ℚ, v.length ≤ (sepFloats v).length := by
  intro v
  induction v with
  | nil => simp [sepFloats]
  | cons q rest ih =>
    cases rest with
    | nil =>
      obtain ⟨c, cs, hc, _⟩ := printFloat_cons q
      simp [sepFloats, hc]
    | cons q2 rest2 =>
      obtain ⟨c, cs, hc, _⟩ := printFloat_cons q
      simp only [sepFloats, List.length_append, List.length_cons, hc] at ih ⊢
      omega

theorem parseItems_sep :
    ∀ (v : List ℚ) (fuel : Nat), (∀ q ∈ v, IsDyadic q) → v ≠ [] → v.length ≤ fuel →
      parseItems fuel (sepFloats v ++ [']']) = some (v, []) := by
  intro v
  induction v with
  | nil => intro fuel _ h _; exact absurd rfl h
  | cons q rest ih =>
    intro fuel hv _ hlen
    cases fuel with
    | zero => simp at hlen
    | succ f =>
      cases rest with
      | nil =>
        have hq := hv q (List.mem_cons_self _ _)
        have hp := parseNumber_print q hq [']']
          (by intro c r' h; injection h with h1 _; subst h1; exact ⟨by decide, by decide⟩)
        show parseItems (f + 1) (sepFloats [q] ++ [']']) = some ([q], [])
        simp only [sepFloats, parseItems]
        rw [hp]
        simp
      | cons q2 rest2 =>
        have hq := hv q (List.mem_cons_self _ _)
        have hshape : sepFloats (q :: q2 :: rest2) ++ [']'] =
            printFloat q ++ (',' :: ' ' :: (sepFloats (q2 :: rest2) ++ [']'])) := by
          simp [sepFloats]
        have hp := parseNumber_print q hq (',' :: ' ' :: (sepFloats (q2 :: rest2) ++ [']']))
          (by intro c r' h; injection h with h1 _; subst h1; exact ⟨by decide, by decide⟩)
        have hrec := ih f (fun x hx => hv x (List.mem_cons_of_mem _ hx)) (by simp)
          (by simp only [List.length_cons] at hlen ⊢; omega)
        rw [hshape]
        simp only [parseItems]
        rw [hp]
        simp [hrec]

theorem json_loads_open (X : List Char) (c : Char) (Y : List Char)
    (hX : X = c :: Y) (hc : c ≠ ']') :
    json_loads_vec ('[' :: X) =
      (match parseItems ('[' :: X).length X with
       | some (v, []) => some v
       | _ => none) := by
  subst hX
  simp [json_loads_vec, hc]

theorem json_loads_json_dumps (v : List ℚ) (hv : ∀ q ∈ v, IsDyadic q) :
    json_loads_vec (json_dumps v) = some v := by
  cases v with
  | nil => decide
  | cons q rest =>
    obtain ⟨c, cs, hc, hface⟩ := printFloat_cons q
    have hsep : ∃ ds, sepFloats (q :: rest) = c :: ds := by
      cases rest with
      | nil => exact ⟨cs, by simp [sepFloats, hc]⟩
      | cons q2 r2 => exact ⟨cs ++ ',' :: ' ' :: sepFloats (q2 :: r2), by simp [sepFloats, hc]⟩
    obtain ⟨ds, hds⟩ := hsep
    have hcne : c ≠ ']' := by
      rcases hface with h | h
      · intro he
        rw [he] at h
        exact absurd h (by decide)
      · intro he
        rw [h] at he
        exact absurd he (by decide)
    have hfuel : (q :: rest).length ≤ ('[' :: (sepFloats (q :: rest) ++ [']'])).length := by
      have := sepFloats_length (q :: rest)
      simp only [List.length_cons, List.length_append] at this ⊢
      omega
    have hitems := parseItems_sep (q :: rest) ('[' :: (sepFloats (q :: rest) ++ [']'])).length
      hv (by simp) hfuel
    unfold json_dumps
    rw [json_loads_open _ c (ds ++ [']']) (by rw [hds, List.cons_append]) hcne]
    rw [hitems]

/-- Round trip through the cipher: `_bytes_to_vector(_vector_to_bytes(v, f), f)`
recovers `v` exactly for every vector of finite floats. -/
theorem bytes_vector_round (v : List ℚ) (fernet : FKey) (hv : ∀ q ∈ v, IsDyadic q) :
    bytes_to_vector (vector_to_bytes v fernet) fernet = some v := by
  unfold bytes_to_vector vector_to_bytes fernetEncrypt fernetDecrypt
  rw [if_pos rfl]
  exact json_loads_json_dumps v hv

/-! ## Candidate-scan lemmas -/

/-- One loop iteration, phrased through `candidateVec`: a candidate either
contributes its decrypted vector or leaves the accumulator untouched. -/
theorem scanStep_eq (fsqrt : ℚ → ℚ) (fernet : FKey) (probe : List ℚ)
    (acc : Option StudentRec × ℚ) (s : StudentRec) :
    scanStep fsqrt fernet probe acc s =
      match candidateVec fernet s with
      | none => acc
      | some vec =>
        if acc.2 < cosine_similarity fsqrt probe vec
        then (some s, cosine_similarity fsqrt probe vec) else acc := by
  obtain ⟨sid, user, nm, reg, crs, yr, sem, femb⟩ := s
  unfold scanStep candidateVec
  cases user with
  | none => rfl
  | some u =>
    by_cases hc : u.consent_given = true
    · simp only [hc, if_true]
      cases femb with
      | none => rfl
      | some enc =>
        cases bytes_to_vector enc fernet with
        | none => rfl
        | some vec => rfl
    · simp only [hc, if_false]
      simp [hc]

/-- The scan result depends only on the candidates that survive the skip
conditions. -/
theorem scan_filter_valid (fsqrt : ℚ → ℚ) (fernet : FKey) (probe : List ℚ) :
    ∀ (students : List StudentRec) (acc : Option StudentRec × ℚ),
      students.foldl (scanStep fsqrt fernet probe) acc =
        (students.filter (fun s => (candidateVec fernet s).isSome)).foldl
          (scanStep fsqrt fernet probe) acc := by
  intro students
  induction students with
  | nil => intro acc; rfl
  | cons s rest ih =>
    intro acc
    by_cases h : (candidateVec fernet s).isSome = true
    · simp only [List.filter_cons, h, if_true, List.foldl_cons]
      exact ih _
    · have hnone : candidateVec fernet s = none := Option.not_isSome_iff_eq_none.mp h
      have hstep : scanStep fsqrt fernet probe acc s = acc := by
        rw [scanStep_eq, hnone]
      simp only [List.filter_cons, h, if_false, List.foldl_cons, hstep]
      exact ih _

/-- A candidate whose every valid score is bounded by the accumulator never
changes it. -/
theorem scan_no_improve (fsqrt : ℚ → ℚ) (fernet : FKey) (probe : List ℚ) :
    ∀ (students : List StudentRec) (acc : Option StudentRec × ℚ),
      (∀ s ∈ students, ∀ v, candidateVec fernet s = some v →
        cosine_similarity fsqrt probe v ≤ acc.2) →
      students.foldl (scanStep fsqrt fernet probe) acc = acc := by
  intro students
  induction students with
  | nil => intro acc _; rfl
  | cons s rest ih =>
    intro acc h
    have hstep : scanStep fsqrt fernet probe acc s = acc := by
      rw [scanStep_eq]
      cases hcv : candidateVec fernet s with
      | none => rfl
      | some v =>
        have := h s (List.mem_cons_self _ _) v hcv
        simp only [if_neg (not_lt.mpr this)]
    simp only [List.foldl_cons, hstep]
    exact ih _ (fun x hx => h x (List.mem_cons_of_mem _ hx))

/-- If the accumulator score is strictly below `B` and every valid score in the
list is strictly below `B`, the final score stays strictly below `B`. -/
theorem scan_lt_bound (fsqrt : ℚ → ℚ) (fernet : FKey) (probe : List ℚ) (B : ℚ) :
    ∀ (students : List StudentRec) (acc : Option StudentRec × ℚ),
      acc.2 < B →
      (∀ s ∈ students, ∀ v, candidateVec fernet s = some v →
        cosine_similarity fsqrt probe v < B) →
      (students.foldl (scanStep fsqrt fernet probe) acc).2 < B := by
  intro students
  induction students with
  | nil => intro acc hacc _; exact hacc
  | cons s rest ih =>
    intro acc hacc h
    simp only [List.foldl_cons]
    apply ih
    · rw [scanStep_eq]
      cases hcv : candidateVec fernet s with
      | none => exact hacc
      | some v =>
        by_cases hlt : acc.2 < cosine_similarity fsqrt probe v
        · simp only [if_pos hlt]
          exact h s (List.mem_cons_self _ _) v hcv
        · simp only [if_neg hlt]
          exact hacc
    · exact fun x hx => h x (List.mem_cons_of_mem _ hx)

theorem ite_lt_max (a b : ℚ) : (if a < b then b else a) = max a b := by
  rcases le_or_lt b a with h | h
  · rw [if_neg (not_lt.mpr h), max_eq_left h]
  · rw [if_pos h, max_eq_right (le_of_lt h)]

/-- The tracked `best_score` is the left fold of `max` over the valid
candidates' scores. -/
theorem scan_snd_foldmax (fsqrt : ℚ → ℚ) (fernet : FKey) (probe : List ℚ) :
    ∀ (students : List StudentRec) (acc : Option StudentRec × ℚ),
      (students.foldl (scanStep fsqrt fernet probe) acc).2 =
        (validSims fsqrt fernet probe students).foldl max acc.2 := by
  intro students
  induction students with
  | nil => intro acc; rfl
  | cons s rest ih =>
    intro acc
    simp only [List.foldl_cons, validSims, List.filterMap_cons]
    cases hcv : candidateVec fernet s with
    | none =>
      have hstep : scanStep fsqrt fernet probe acc s = acc := by
        rw [scanStep_eq, hcv]
      simp only [Option.map_none', hstep]
      exact ih _
    | some v =>
      have hstep : scanStep fsqrt fernet probe acc s =
          (if acc.2 < cosine_similarity fsqrt probe v
           then (some s, cosine_similarity fsqrt probe v) else acc) := by
        rw [scanStep_eq, hcv]
      have hsnd : (scanStep fsqrt fernet probe acc s).2 =
          max acc.2 (cosine_similarity fsqrt probe v) := by
        rw [hstep, ← ite_lt_max]
        by_cases hlt : acc.2 < cosine_similarity fsqrt probe v
        · simp [hlt]
        · simp [hlt]
      simp only [Option.map_some', List.foldl_cons]
      rw [ih _, hsnd]
      rfl

/-- Once a best candidate is recorded it is never dropped (only replaced). -/
theorem scan_some_stays (fsqrt : ℚ → ℚ) (fernet : FKey) (probe : List ℚ) :
    ∀ (students : List StudentRec) (acc : Option StudentRec × ℚ),
      acc.1.isSome = true →
      ((students.foldl (scanStep fsqrt fernet probe) acc).1).isSome = true := by
  intro students
  induction students with
  | nil => intro acc h; exact h
  | cons s rest ih =>
    intro acc h
    simp only [List.foldl_cons]
    apply ih
    rw [scanStep_eq]
    cases hcv : candidateVec fernet s with
    | none => exact h
    | some v =>
      by_cases hlt : acc.2 < cosine_similarity fsqrt probe v
      · simp [hlt]
      · simpa [hlt] using h

/-- If the scan ends with no best candidate, nothing was ever selected and the
accumulator is returned unchanged. -/
theorem scan_none_unchanged (fsqrt : ℚ → ℚ) (fernet : FKey) (probe : List ℚ) :
    ∀ (students : List StudentRec) (acc : Option StudentRec × ℚ),
      acc.1 = none →
      (students.foldl (scanStep fsqrt fernet probe) acc).1 = none →
      students.foldl (scanStep fsqrt fernet probe) acc = acc := by
  intro students
  induction students with
  | nil => intro acc _ _; rfl
  | cons s rest ih =>
    intro acc hacc hres
    simp only [List.foldl_cons] at hres ⊢
    cases hcv : candidateVec fernet s with
    | none =>
      have hstep : scanStep fsqrt fernet probe acc s = acc := by
        rw [scanStep_eq, hcv]
      rw [hstep] at hres ⊢
      exact ih _ hacc hres
    | some v =>
      by_cases hlt : acc.2 < cosine_similarity fsqrt probe v
      · exfalso
        have hstep : scanStep fsqrt fernet probe acc s =
            (some s, cosine_similarity fsqrt probe v) := by
          rw [scanStep_eq, hcv]
          exact if_pos hlt
        rw [hstep] at hres
        have := scan_some_stays fsqrt fernet probe rest
          (some s, cosine_similarity fsqrt probe v) (by simp)
        rw [hres] at this
        simp at this
      · have hstep : scanStep fsqrt fernet probe acc s = acc := by
          rw [scanStep_eq, hcv]
          exact if_neg hlt
        rw [hstep] at hres ⊢
        exact ih _ hacc hres

/-- Running invariant: a non-negative score, and a recorded best candidate is
always a valid candidate whose score equals the (strictly positive) tracked
maximum. -/
theorem scan_invariant (fsqrt : ℚ → ℚ) (fernet : FKey) (probe : List ℚ) :
    ∀ (students : List StudentRec) (acc : Option StudentRec × ℚ),
      0 ≤ acc.2 →
      (∀ s, acc.1 = some s → ∃ v, candidateVec fernet s = some v ∧
        cosine_similarity fsqrt probe v = acc.2 ∧ 0 < acc.2) →
      0 ≤ (students.foldl (scanStep fsqrt fernet probe) acc).2 ∧
      (∀ s, (students.foldl (scanStep fsqrt fernet probe) acc).1 = some s →
        ∃ v, candidateVec fernet s = some v ∧
          cosine_similarity fsqrt probe v =
            (students.foldl (scanStep fsqrt fernet probe) acc).2 ∧
          0 < (students.foldl (scanStep fsqrt fernet probe) acc).2) := by
  intro students
  induction students with
  | nil => intro acc h1 h2; exact ⟨h1, h2⟩
  | cons s rest ih =>
    intro acc h1 h2
    simp only [List.foldl_cons]
    cases hcv : candidateVec fernet s with
    | none =>
      have hstep : scanStep fsqrt fernet probe acc s = acc := by
        rw [scanStep_eq, hcv]
      rw [hstep]
      exact ih _ h1 h2
    | some v =>
      by_cases hlt : acc.2 < cosine_similarity fsqrt probe v
      · have hstep : scanStep fsqrt fernet probe acc s =
            (some s, cosine_similarity fsqrt probe v) := by
          rw [scanStep_eq, hcv]
          exact if_pos hlt
        rw [hstep]
        apply ih
        · exact le_of_lt (lt_of_le_of_lt h1 hlt)
        · intro s' hs'
          have hss : s = s' := by simpa using hs'
          subst hss
          exact ⟨v, hcv, rfl, lt_of_le_of_lt h1 hlt⟩
      · have hstep : scanStep fsqrt fernet probe acc s = acc := by
          rw [scanStep_eq, hcv]
          exact if_neg hlt
        rw [hstep]
        exact ih _ h1 h2

/-! ## Schedule lookup lemmas -/

theorem find_current_class_spec :
    ∀ (classes : List ClassRec) (day : String) (now : ℚ) (c : ClassRec),
      find_current_class classes day now = some c →
      c ∈ classes ∧ c.day_of_week = day ∧ c.start_time ≤ now ∧ now ≤ c.end_time := by
  intro classes
  induction classes with
  | nil => intro day now c h; simp [find_current_class] at h
  | cons cl rest ih =>
    intro day now c h
    unfold find_current_class at h
    split at h
    · rename_i hp
      injection h with h
      subst h
      exact ⟨List.mem_cons_self _ _, hp⟩
    · obtain ⟨hm, hp⟩ := ih day now c h
      exact ⟨List.mem_cons_of_mem _ hm, hp⟩

theorem find_current_class_isSome :
    ∀ (classes : List ClassRec) (day : String) (now : ℚ),
      (find_current_class classes day now).isSome = true ↔
        ∃ c ∈ classes, c.day_of_week = day ∧ c.start_time ≤ now ∧ now ≤ c.end_time := by
  intro classes
  induction classes with
  | nil =>
    intro day now
    simp [find_current_class]
  | cons cl rest ih =>
    intro day now
    unfold find_current_class
    split
    · rename_i hp
      simp only [Option.isSome_some, true_iff]
      exact ⟨cl, List.mem_cons_self _ _, hp⟩
    · rename_i hp
      rw [ih]
      constructor
      · rintro ⟨c, hm, hc⟩
        exact ⟨c, List.mem_cons_of_mem _ hm, hc⟩
      · rintro ⟨c, hm, hc⟩
        rcases List.mem_cons.mp hm with rfl | hm'
        · exact absurd hc hp
        · exact ⟨c, hm', hc⟩

/-! ## Embedding generator lemmas -/

theorem sqrtQLin_natCast (n : Nat) : sqrtQLin ((n : ℕ) : ℚ) = (natSqrtLin n : ℚ) := by
  simp [sqrtQLin, Rat.num_natCast, Rat.den_natCast, Int.toNat_natCast,
    show natSqrtLin 1 = 1 from by decide]

theorem candidateVec_mkStudent (k : FKey) (sid : Nat) (v : List ℚ)
    (hv : ∀ q ∈ v, IsDyadic q) :
    candidateVec k (mkStudent sid v k) = some v := by
  unfold candidateVec mkStudent mkUser
  simp [bytes_vector_round v k hv]

theorem sqrtQLin_one : sqrtQLin 1 = 1 := by
  have h := sqrtQLin_natCast 1
  norm_num at h
  exact h

theorem sqrtQLin_four : sqrtQLin 4 = 2 := by
  have h := sqrtQLin_natCast 4
  rw [show natSqrtLin 4 = 2 from by decide] at h
  norm_num at h
  exact h

theorem sqrtQLin_nine : sqrtQLin 9 = 3 := by
  have h := sqrtQLin_natCast 9
  rw [show natSqrtLin 9 = 3 from by decide] at h
  norm_num at h
  exact h

theorem sqrtQLin_twentyfive : sqrtQLin 25 = 5 := by
  have h := sqrtQLin_natCast 25
  rw [show natSqrtLin 25 = 5 from by decide] at h
  norm_num at h
  exact h

/-! ## Claims -/

/-- C2 counterexample: the enrollment request with every field absent has
consent false (the default), yet `api_enroll` fails with `missing_fields`
(HTTP 400), not the consent-denied error — the field-completeness check runs
before the consent check, so not every consent-false request fails with 403. -/
theorem C2_counterexample_missing_fields_first :
    reqEmpty.consent = false ∧
    api_enroll (fun _ => []) none 0 state0 reqEmpty = (.missing_fields, state0) ∧
    EnrollOutcome.missing_fields ≠ EnrollOutcome.consent_required := by
  refine ⟨rfl, by decide, by decide⟩

/-- C2 (amended): for every enrollment request with all required fields
present and consent false, `api_enroll` fails with `consent_required`
(HTTP 403) before any biometric processing, leaving the stored state
unchanged; and `_encrypt_embedding_if_consented` raises for every input when
the subject's `consent_given` is false. -/
theorem C2_consent_denied_blocks :
    (∀ (gen : String → List ℚ) (env : Option String) (draw : Nat)
       (st : AppState) (req : EnrollRequest),
      truthyStr req.name = true → truthyStr req.reg_no = true →
      truthyStr req.course = true → truthyStr req.facial_image_base64 = true →
      req.consent = false →
      api_enroll gen env draw st req = (.consent_required, st)) ∧
    (∀ (user : UserRec) (raw : List Char) (fernet : FKey),
      user.consent_given = false →
      encrypt_embedding_if_consented user raw fernet =
        Except.error ("Consent not given; biometric processing is prohibited.")) := by
  constructor
  · intro gen env draw st req h1 h2 h3 h4 hc
    simp [api_enroll, h1, h2, h3, h4, hc]
  · intro user raw fernet h
    unfold encrypt_embedding_if_consented
    rw [if_pos (by simp [h])]

/-- C2 witness: the concrete complete-but-unconsenting request is rejected
with `consent_required` and the state is untouched; the raising helper raises
on a concrete unconsenting user. -/
theorem C2_consent_denied_blocks_witness :
    api_enroll (fun _ => []) none 0 state0 reqNoConsent = (.consent_required, state0) ∧
    encrypt_embedding_if_consented
        { uid := 1, username := "u", password_hash := "h", role := "student",
          consent_given := false } ['a'] keyOp =
      Except.error ("Consent not given; biometric processing is prohibited.") :=
  ⟨C2_consent_denied_blocks.1 (fun _ => []) none 0 state0 reqNoConsent
      (by decide) (by decide) (by decide) (by decide) (by decide),
   C2_consent_denied_blocks.2 _ _ _ rfl⟩

/-- C3: during recognition a candidate is skipped — not an error — when its
user row is missing, consent is absent, no embedding is stored, or its
ciphertext fails to decrypt or parse: the scan result equals the scan of just
the valid candidates, and a failing candidate in front of the list leaves the
scan of the remainder unchanged (so a valid candidate after a
decryption-error candidate can still be returned as the match). -/
theorem C3_skip_invalid_candidates :
    (∀ (fsqrt : ℚ → ℚ) (fernet : FKey) (probe : List ℚ) (students : List StudentRec),
      scanStudents fsqrt fernet probe students =
        scanStudents fsqrt fernet probe
          (students.filter (fun s => (candidateVec fernet s).isSome))) ∧
    (∀ (fsqrt : ℚ → ℚ) (fernet : FKey) (probe : List ℚ) (bad : StudentRec)
       (rest : List StudentRec),
      candidateVec fernet bad = none →
      scanStudents fsqrt fernet probe (bad :: rest) =
        scanStudents fsqrt fernet probe rest) := by
  constructor
  · intro fsqrt fernet probe students
    exact scan_filter_valid fsqrt fernet probe students (none, 0)
  · intro fsqrt fernet probe bad rest h
    unfold scanStudents
    simp only [List.foldl_cons]
    have hstep : scanStep fsqrt fernet probe (none, 0) bad = (none, 0) := by
      rw [scanStep_eq, h]
    rw [hstep]

/-- C3 witness: a candidate whose ciphertext was produced under a different
key fails to decrypt, is skipped, and the scan over the remaining (valid)
candidate is unchanged. -/
theorem C3_skip_invalid_candidates_witness :
    candidateVec keyOp badStudent = none ∧
    scanStudents sqrtQLin keyOp [1] [badStudent, mkStudent 1 [1] keyOp] =
      scanStudents sqrtQLin keyOp [1] [mkStudent 1 [1] keyOp] := by
  have h : candidateVec keyOp badStudent = none := by decide
  exact ⟨h, C3_skip_invalid_candidates.2 sqrtQLin keyOp [1] badStudent
    [mkStudent 1 [1] keyOp] h⟩

/-- C6: cipher round trip: for every vector of finite floating-point values
and every fixed key, `_bytes_to_vector(_vector_to_bytes(v, key), key)`
returns exactly `v` — the JSON text serialisation followed by Fernet
encryption, and the reverse, reproduce the original values without precision
loss. -/
theorem C6_cipher_round_trip (v : List ℚ) (fernet : FKey)
    (hv : ∀ q ∈ v, IsDyadic q) :
    bytes_to_vector (vector_to_bytes v fernet) fernet = some v :=
  bytes_vector_round v fernet hv

/-- C6 witness: a concrete vector of finite floats (0.5, 3, -0.625)
round-trips exactly through the cipher. -/
theorem C6_cipher_round_trip_witness :
    bytes_to_vector (vector_to_bytes [1/2, 3, -(5/8)] keyOp) keyOp =
      some [1/2, 3, -(5/8)] := by
  apply C6_cipher_round_trip
  intro q hq
  simp only [List.mem_cons, List.not_mem_nil, or_false] at hq
  rcases hq with rfl | rfl | rfl
  · exact ⟨1, by norm_num⟩
  · exact ⟨0, by norm_num⟩
  · exact ⟨3, by norm_num⟩

/-- C9: the returned score is never negative: `best_score` starts at 0.0 and
is only replaced by strictly greater values; a selected candidate always has
strictly positive similarity, so a candidate whose cosine similarity is ≤ 0
is never selected; and when no valid candidate has positive similarity —
including the empty candidate set — the response is matched=false with score
exactly 0, even though cosine similarity ranges over [-1, 1]. -/
theorem C9_score_never_negative :
    (∀ (fsqrt : ℚ → ℚ) (fernet : FKey) (probe : List ℚ) (students : List StudentRec),
      0 ≤ (scanStudents fsqrt fernet probe students).2) ∧
    (∀ (fsqrt : ℚ → ℚ) (fernet : FKey) (probe : List ℚ) (students : List StudentRec)
       (s : StudentRec),
      (scanStudents fsqrt fernet probe students).1 = some s →
      ∃ v, candidateVec fernet s = some v ∧
        0 < cosine_similarity fsqrt probe v ∧
        cosine_similarity fsqrt probe v = (scanStudents fsqrt fernet probe students).2) ∧
    (∀ (fsqrt : ℚ → ℚ) (fernet : FKey) (probe : List ℚ) (students : List StudentRec)
       (day : String) (now : ℚ) (classes : List ClassRec) (atts : List AttendanceRec),
      (∀ s ∈ students, ∀ v, candidateVec fernet s = some v →
        cosine_similarity fsqrt probe v ≤ 0) →
      api_recognize_core fsqrt fernet probe students day now classes atts =
        (.noMatch 0, atts)) := by
  refine ⟨?_, ?_, ?_⟩
  · intro fsqrt fernet probe students
    exact (scan_invariant fsqrt fernet probe students (none, 0) le_rfl (by simp)).1
  · intro fsqrt fernet probe students s h
    obtain ⟨v, hcv, hsim, hpos⟩ :=
      (scan_invariant fsqrt fernet probe students (none, 0) le_rfl (by simp)).2 s h
    exact ⟨v, hcv, by rw [hsim]; exact hpos, hsim⟩
  · intro fsqrt fernet probe students day now classes atts h
    have hscan : scanStudents fsqrt fernet probe students = (none, 0) :=
      scan_no_improve fsqrt fernet probe students (none, 0) h
    unfold api_recognize_core
    rw [hscan]

/-- C9 witness: against a single candidate of similarity -1 (probe [1],
stored [-1]) the response is matched=false with score exactly 0. -/
theorem C9_score_never_negative_witness :
    api_recognize_core sqrtQLin keyOp [1] [mkStudent 1 [-1] keyOp] "Mon" 600 [] [] =
      (.noMatch 0, []) := by
  apply C9_score_never_negative.2.2
  intro s hs v hv
  have hcv : candidateVec keyOp (mkStudent 1 [-1] keyOp) = some [-1] := by
    apply candidateVec_mkStudent
    intro q hq
    simp only [List.mem_singleton] at hq
    subst hq
    exact ⟨0, by norm_num⟩
  simp only [List.mem_singleton] at hs
  subst hs
  rw [hcv] at hv
  injection hv with hv
  subst hv
  have h1 : sqrtQLin (0 + 1 * 1) = 1 := by
    norm_num [sqrtQLin_one]
  have h2 : sqrtQLin (0 + -1 * -1) = 1 := by
    norm_num [sqrtQLin_one]
  norm_num [cosine_similarity, h1, h2, sqrtQLin_one]

/-- C10: login verifies the password by `expected.endswith(password)` on the
stored hash text: with an existing username the call succeeds (returning a
token with the user's id, role and username) iff the supplied password is a
suffix of the stored `password_hash`; an unknown username is rejected; and an
empty-string or absent password is always accepted for an existing user. -/
theorem C10_login_suffix_check :
    (∀ (users : List UserRec) (un pw : String) (u : UserRec),
      firstUserNamed users un = some u →
      (api_login users (some un) (some pw) = .access_token u.uid u.role u.username ↔
        pw.data <:+ u.password_hash.data)) ∧
    (∀ (users : List UserRec) (un : String) (pw : Option String),
      firstUserNamed users un = none →
      api_login users (some un) pw = .invalid_credentials) ∧
    (∀ (users : List UserRec) (un : String) (u : UserRec),
      firstUserNamed users un = some u →
      api_login users (some un) (some ("")) = .access_token u.uid u.role u.username ∧
      api_login users (some un) none = .access_token u.uid u.role u.username) := by
  have hred : ∀ (users : List UserRec) (un : String) (pw? : Option String) (u : UserRec),
      firstUserNamed users un = some u →
      api_login users (some un) pw? =
        (if endswith u.password_hash (pw?.getD ("")) then
          LoginResult.access_token u.uid u.role u.username
         else .invalid_credentials) := by
    intro users un pw? u h
    simp [api_login, h]
  refine ⟨?_, ?_, ?_⟩
  · intro users un pw u h
    rw [hred users un (some pw) u h]
    by_cases he : endswith u.password_hash pw = true
    · rw [Option.getD_some, if_pos he]
      exact iff_of_true rfl (List.isSuffixOf_iff_suffix.mp he)
    · rw [Option.getD_some, if_neg he]
      refine iff_of_false (by simp) (fun hs => he ?_)
      exact List.isSuffixOf_iff_suffix.mpr hs
  · intro users un pw h
    simp [api_login, h]
  · intro users un u h
    constructor
    · rw [hred users un (some ("")) u h, Option.getD_some, if_pos ?_]
      unfold endswith
      exact List.isSuffixOf_iff_suffix.mpr List.nil_suffix
    · rw [hred users un none u h, Option.getD_none, if_pos ?_]
      unfold endswith
      exact List.isSuffixOf_iff_suffix.mpr List.nil_suffix

/-- C10 witness: for a concrete stored user, the empty and the absent
password are both accepted, and a password that is a strict suffix of
the stored hash text is accepted too. -/
theorem C10_login_suffix_check_witness :
    api_login [mkUser 7 ("alice")] (some ("alice")) (some ("")) =
      .access_token 7 ("student") ("alice") ∧
    api_login [mkUser 7 ("alice")] (some ("alice")) none =
      .access_token 7 ("student") ("alice") ∧
    api_login [mkUser 7 ("alice")] (some ("alice")) (some ("changeme")) =
      .access_token 7 ("student") ("alice") := by
  have hfind : firstUserNamed [mkUser 7 ("alice")] "alice" = some (mkUser 7 ("alice")) := by
    decide
  have h1 := (C10_login_suffix_check.2.2) [mkUser 7 ("alice")] ("alice") (mkUser 7 ("alice")) hfind
  have h2 := (C10_login_suffix_check.1) [mkUser 7 ("alice")] ("alice") ("changeme")
    (mkUser 7 ("alice")) hfind
  refine ⟨h1.1, h1.2, h2.mpr ?_⟩
  decide

/-- C4: the acceptance threshold is inclusive at 0.8: for every recognition
call with at least one valid candidate, the response is matched exactly when
the best tracked score reaches 4/5 (a best score of exactly 4/5 matches), and
a below-threshold response still returns the raw best score to the caller. -/
theorem C4_threshold_inclusive
    (fsqrt : ℚ → ℚ) (fernet : FKey) (probe : List ℚ) (students : List StudentRec)
    (day : String) (now : ℚ) (classes : List ClassRec) (atts : List AttendanceRec)
    (hne : validSims fsqrt fernet probe students ≠ []) :
    ((api_recognize_core fsqrt fernet probe students day now classes atts).1.isMatched = true ↔
      4 / 5 ≤ (validSims fsqrt fernet probe students).foldl max 0) ∧
    ((api_recognize_core fsqrt fernet probe students day now classes atts).1.isMatched = false →
      (api_recognize_core fsqrt fernet probe students day now classes atts).1 =
        .noMatch ((validSims fsqrt fernet probe students).foldl max 0)) := by
  clear hne
  have hsnd := scan_snd_foldmax fsqrt fernet probe students (none, 0)
  rcases hscan : scanStudents fsqrt fernet probe students with ⟨bo, m⟩
  unfold scanStudents at hscan
  have hm : m = (validSims fsqrt fernet probe students).foldl max 0 := by
    rw [← hsnd, hscan]
  cases bo with
  | none =>
    have hres : List.foldl (scanStep fsqrt fernet probe) (none, 0) students = (none, 0) := by
      apply scan_none_unchanged fsqrt fernet probe students (none, 0) rfl
      rw [hscan]
    have hm0 : m = 0 := by
      rw [hscan] at hres
      exact (Prod.mk.injEq _ _ _ _ ▸ hres).2
    simp only [api_recognize_core, scanStudents, hscan]
    constructor
    · simp only [RecOutcome.isMatched, Bool.false_eq_true, false_iff]
      rw [← hm, hm0]
      norm_num
    · intro _
      rw [← hm]
  | some b =>
    simp only [api_recognize_core, scanStudents, hscan]
    by_cases h45 : m < 4 / 5
    · rw [if_pos h45]
      constructor
      · simp only [RecOutcome.isMatched, Bool.false_eq_true, false_iff]
        rw [← hm]
        exact not_le.mpr h45
      · intro _
        rw [← hm]
    · rw [if_neg h45]
      cases hfc : find_current_class classes day now with
      | none =>
        constructor
        · simp only [RecOutcome.isMatched, true_iff]
          rw [← hm]
          exact not_lt.mp h45
        · intro habs
          simp [RecOutcome.isMatched] at habs
      | some current =>
        constructor
        · simp only [RecOutcome.isMatched, true_iff]
          rw [← hm]
          exact not_lt.mp h45
        · intro habs
          simp [RecOutcome.isMatched] at habs

/-- C4 witness: a candidate whose cosine similarity to the probe is exactly
4/5 (probe [1,0], stored [4,3]) is matched; one of similarity 3/5 (stored
[3,4]) is not, and the response still carries the raw best score 3/5. -/
theorem C4_threshold_inclusive_witness :
    ((api_recognize_core sqrtQLin keyOp [1, 0] [mkStudent 1 [4, 3] keyOp]
        "Mon" 600 [] []).1.isMatched = true) ∧
    ((api_recognize_core sqrtQLin keyOp [1, 0] [mkStudent 1 [3, 4] keyOp]
        "Mon" 600 [] []).1 = .noMatch (3 / 5)) := by
  have hcv1 : candidateVec keyOp (mkStudent 1 [4, 3] keyOp) = some [4, 3] := by
    apply candidateVec_mkStudent
    intro q hq
    simp only [List.mem_cons, List.not_mem_nil, or_false] at hq
    rcases hq with rfl | rfl
    · exact ⟨0, by norm_num⟩
    · exact ⟨0, by norm_num⟩
  have hcv2 : candidateVec keyOp (mkStudent 1 [3, 4] keyOp) = some [3, 4] := by
    apply candidateVec_mkStudent
    intro q hq
    simp only [List.mem_cons, List.not_mem_nil, or_false] at hq
    rcases hq with rfl | rfl
    · exact ⟨0, by norm_num⟩
    · exact ⟨0, by norm_num⟩
  have hsim1 : cosine_similarity sqrtQLin [1, 0] [4, 3] = 4 / 5 := by
    norm_num [cosine_similarity, sqrtQLin_one, sqrtQLin_twentyfive]
  have hsim2 : cosine_similarity sqrtQLin [1, 0] [3, 4] = 3 / 5 := by
    norm_num [cosine_similarity, sqrtQLin_one, sqrtQLin_twentyfive]
  have hvs1 : validSims sqrtQLin keyOp [1, 0] [mkStudent 1 [4, 3] keyOp] = [4 / 5] := by
    simp [validSims, hcv1, hsim1]
  have hvs2 : validSims sqrtQLin keyOp [1, 0] [mkStudent 1 [3, 4] keyOp] = [3 / 5] := by
    simp [validSims, hcv2, hsim2]
  have h1 := C4_threshold_inclusive sqrtQLin keyOp [1, 0] [mkStudent 1 [4, 3] keyOp]
    "Mon" 600 [] [] (by rw [hvs1]; simp)
  have h2 := C4_threshold_inclusive sqrtQLin keyOp [1, 0] [mkStudent 1 [3, 4] keyOp]
    "Mon" 600 [] [] (by rw [hvs2]; simp)
  constructor
  · apply h1.1.mpr
    rw [hvs1]
    simp only [List.foldl_cons, List.foldl_nil]
    rw [max_eq_right (by norm_num : (0 : ℚ) ≤ 4 / 5)]
  · have hle : ¬ (4 / 5 : ℚ) ≤
        (validSims sqrtQLin keyOp [1, 0] [mkStudent 1 [3, 4] keyOp]).foldl max 0 := by
      rw [hvs2]
      simp only [List.foldl_cons, List.foldl_nil]
      rw [max_eq_right (by norm_num : (0 : ℚ) ≤ 3 / 5)]
      norm_num
    have hnm : (api_recognize_core sqrtQLin keyOp [1, 0] [mkStudent 1 [3, 4] keyOp]
        "Mon" 600 [] []).1.isMatched = false := by
      cases hb : (api_recognize_core sqrtQLin keyOp [1, 0] [mkStudent 1 [3, 4] keyOp]
          "Mon" 600 [] []).1.isMatched with
      | false => rfl
      | true => exact absurd (h2.1.mp hb) hle
    have hfin := h2.2 hnm
    rw [hvs2] at hfin
    simp only [List.foldl_cons, List.foldl_nil] at hfin
    rw [max_eq_right (by norm_num : (0 : ℚ) ≤ 3 / 5)] at hfin
    exact hfin

/-- C7: tie-break is first-seen: the running maximum is only replaced on a
strictly greater score, so when two valid candidates share the maximal
(positive) score — every valid score at most that value and every valid
candidate before the first strictly below it — the scan returns the earlier
of the two with that score. -/
theorem C7_tie_break_first_seen
    (fsqrt : ℚ → ℚ) (fernet : FKey) (probe : List ℚ)
    (l1 l2 l3 : List StudentRec) (c1 c2 : StudentRec) (v1 v2 : List ℚ)
    (h1 : candidateVec fernet c1 = some v1)
    (h2 : candidateVec fernet c2 = some v2)
    (heq : cosine_similarity fsqrt probe v2 = cosine_similarity fsqrt probe v1)
    (hpos : 0 < cosine_similarity fsqrt probe v1)
    (hmax : ∀ s ∈ l1 ++ c1 :: l2 ++ c2 :: l3, ∀ v, candidateVec fernet s = some v →
      cosine_similarity fsqrt probe v ≤ cosine_similarity fsqrt probe v1)
    (hpre : ∀ s ∈ l1, ∀ v, candidateVec fernet s = some v →
      cosine_similarity fsqrt probe v < cosine_similarity fsqrt probe v1) :
    scanStudents fsqrt fernet probe (l1 ++ c1 :: l2 ++ c2 :: l3) =
      (some c1, cosine_similarity fsqrt probe v1) := by
  clear heq
  unfold scanStudents
  rw [List.foldl_append, List.foldl_append, List.foldl_cons, List.foldl_cons]
  have hb := scan_lt_bound fsqrt fernet probe (cosine_similarity fsqrt probe v1)
    l1 (none, 0) hpos hpre
  have hstep : scanStep fsqrt fernet probe
      (List.foldl (scanStep fsqrt fernet probe) (none, 0) l1) c1 =
      (some c1, cosine_similarity fsqrt probe v1) := by
    rw [scanStep_eq, h1]
    exact if_pos hb
  rw [hstep]
  have hl2 : List.foldl (scanStep fsqrt fernet probe)
      (some c1, cosine_similarity fsqrt probe v1) l2 =
      (some c1, cosine_similarity fsqrt probe v1) := by
    apply scan_no_improve
    intro s hs v hv
    refine hmax s ?_ v hv
    exact List.mem_append.mpr (Or.inl (List.mem_append.mpr
      (Or.inr (List.mem_cons_of_mem _ hs))))
  rw [hl2]
  have hc2mem : c2 ∈ l1 ++ c1 :: l2 ++ c2 :: l3 :=
    List.mem_append.mpr (Or.inr (List.mem_cons_self _ _))
  have hstep2 : scanStep fsqrt fernet probe
      (some c1, cosine_similarity fsqrt probe v1) c2 =
      (some c1, cosine_similarity fsqrt probe v1) := by
    rw [scanStep_eq, h2]
    exact if_neg (not_lt.mpr (hmax c2 hc2mem v2 h2))
  rw [hstep2]
  apply scan_no_improve
  intro s hs v hv
  refine hmax s ?_ v hv
  exact List.mem_append.mpr (Or.inr (List.mem_cons_of_mem _ hs))

/-- C7 witness: probe [1] against stored [2] then [3] — both of similarity
exactly 1 — returns the first candidate. -/
theorem C7_tie_break_first_seen_witness :
    scanStudents sqrtQLin keyOp [1] [mkStudent 1 [2] keyOp, mkStudent 2 [3] keyOp] =
      (some (mkStudent 1 [2] keyOp), 1) := by
  have hcv1 : candidateVec keyOp (mkStudent 1 [2] keyOp) = some [2] := by
    apply candidateVec_mkStudent
    intro q hq
    simp only [List.mem_singleton] at hq
    subst hq
    exact ⟨0, by norm_num⟩
  have hcv2 : candidateVec keyOp (mkStudent 2 [3] keyOp) = some [3] := by
    apply candidateVec_mkStudent
    intro q hq
    simp only [List.mem_singleton] at hq
    subst hq
    exact ⟨0, by norm_num⟩
  have hs2 : cosine_similarity sqrtQLin [1] [2] = 1 := by
    norm_num [cosine_similarity, sqrtQLin_one, sqrtQLin_four]
  have hs3 : cosine_similarity sqrtQLin [1] [3] = 1 := by
    norm_num [cosine_similarity, sqrtQLin_one, sqrtQLin_nine]
  have h := C7_tie_break_first_seen sqrtQLin keyOp [1] [] [] []
    (mkStudent 1 [2] keyOp) (mkStudent 2 [3] keyOp) [2] [3] hcv1 hcv2
    (by rw [hs2, hs3])
    (by rw [hs2]; norm_num)
    (by
      intro s hs v hv
      simp at hs
      rcases hs with rfl | rfl
      · rw [hcv1] at hv
        injection hv with hv
        subst hv
        rw [hs2]
      · rw [hcv2] at hv
        injection hv with hv
        subst hv
        rw [hs2, hs3])
    (by intro s hs; simp at hs)
  rw [hs2] at h
  simpa using h

/-- C8: a class counts as currently scheduled iff its `day_of_week` equals
the current day and `start_time ≤ now ≤ end_time`, both endpoints inclusive;
and when a recognition confirms a match but no class is currently scheduled,
the response still reports matched with the score, writes no attendance row,
and the call succeeds. -/
theorem C8_schedule_window_and_no_class :
    (∀ (classes : List ClassRec) (day : String) (now : ℚ),
      (find_current_class classes day now).isSome = true ↔
        ∃ c ∈ classes, c.day_of_week = day ∧ c.start_time ≤ now ∧ now ≤ c.end_time) ∧
    (∀ (classes : List ClassRec) (day : String) (now : ℚ) (c : ClassRec),
      find_current_class classes day now = some c →
      c ∈ classes ∧ c.day_of_week = day ∧ c.start_time ≤ now ∧ now ≤ c.end_time) ∧
    (∀ (fsqrt : ℚ → ℚ) (fernet : FKey) (probe : List ℚ) (students : List StudentRec)
       (day : String) (now : ℚ) (classes : List ClassRec) (atts : List AttendanceRec)
       (b : StudentRec) (sc : ℚ),
      scanStudents fsqrt fernet probe students = (some b, sc) →
      4 / 5 ≤ sc →
      find_current_class classes day now = none →
      api_recognize_core fsqrt fernet probe students day now classes atts =
        (.matchedNoClass b sc, atts)) := by
  refine ⟨find_current_class_isSome, find_current_class_spec, ?_⟩
  intro fsqrt fernet probe students day now classes atts b sc hscan h45 hfc
  simp only [api_recognize_core, hscan, hfc]
  rw [if_neg (not_lt.mpr h45)]

/-- C8 witness: a perfect self-match (score 1 ≥ 4/5) with an empty class
table reports matched with no attendance row appended. -/
theorem C8_schedule_window_and_no_class_witness :
    api_recognize_core sqrtQLin keyOp [1] [mkStudent 1 [1] keyOp] "Mon" 600 [] [] =
      (.matchedNoClass (mkStudent 1 [1] keyOp) 1, []) := by
  have hcv : candidateVec keyOp (mkStudent 1 [1] keyOp) = some [1] := by
    apply candidateVec_mkStudent
    intro q hq
    simp only [List.mem_singleton] at hq
    subst hq
    exact ⟨0, by norm_num⟩
  have hsim : cosine_similarity sqrtQLin [1] [1] = 1 := by
    norm_num [cosine_similarity, sqrtQLin_one]
  have hscan : scanStudents sqrtQLin keyOp [1] [mkStudent 1 [1] keyOp] =
      (some (mkStudent 1 [1] keyOp), 1) := by
    unfold scanStudents
    simp only [List.foldl_cons, List.foldl_nil, scanStep_eq, hcv, hsim]
    norm_num
  exact C8_schedule_window_and_no_class.2.2 sqrtQLin keyOp [1] _ ("Mon") 600 [] [] _ 1
    hscan (by norm_num) rfl

/-- C1 (failing on the code): with `ATTENDIFY_FERNET_KEY` absent,
`_get_fernet` calls `Fernet.generate_key()` anew on every invocation, so the
key is not stable for the process: enrollment (drawing key 1) stores a
ciphertext that the recognition call (drawing key 2) cannot decrypt — the
candidate is skipped and recognition of the very same image's embedding
reports matched=false with score 0, contradicting the claimed process-wide
key under which a later recognition can decrypt every enrolled vector.  Only
the operator-supplied key is stable across calls. -/
theorem C1_fresh_key_per_call_breaks_recognition :
    (api_enroll (fun _ => [1]) none 1 state0 reqComplete).1 = .enrolled 1 ∧
    api_recognize_core sqrtQLin (get_fernet none 2) [1]
        ((api_enroll (fun _ => [1]) none 1 state0 reqComplete).2.students)
        "Mon" 600 [] [] = (.noMatch 0, []) ∧
    get_fernet none 1 ≠ get_fernet none 2 ∧
    (∀ k : String, get_fernet (some k) 1 = get_fernet (some k) 2) :=
  ⟨by decide, by decide, by decide, fun _ => rfl⟩

end Attendify
